import Mathlib

/-!
Verification development for the BottleUnwrapper geometric/numeric core.

The Python sources (`scripts/preprocess.py`, `scripts/seam_extract.py`,
`scripts/uv_repack.py`) are shallowly embedded below.  Floating-point
values are modelled as exact rationals (`ℚ`); NumPy whole-array
operations become per-element list computations, which preserves the
per-index-independent semantics the design notes require.
-/

/-! ## TextureRemapper (`scripts/uv_repack.py`) -/

/-- 2-D point/vector with rational coordinates, used for UV coordinates
and pixel centers. -/
abbrev Vec2 := ℚ × ℚ

def sub2 (a b : Vec2) : Vec2 := (a.1 - b.1, a.2 - b.2)

def add2 (a b : Vec2) : Vec2 := (a.1 + b.1, a.2 + b.2)

def smul2 (c : ℚ) (a : Vec2) : Vec2 := (c * a.1, c * a.2)

def dot2 (a b : Vec2) : ℚ := a.1 * b.1 + a.2 * b.2

/-- Face-list truncation of `uv_repack.main` (lines 53-58): when the old
and new UV-face lists have different lengths, both are truncated to the
shorter length; otherwise they are kept unchanged. -/
def truncateFaces (old new : List α) : List α × List α :=
  if old.length ≠ new.length then
    (old.take (min old.length new.length), new.take (min old.length new.length))
  else (old, new)

/-- Barycentric denominator `d00*d11 - d01*d01` of `uv_repack.main`
(lines 119-129), built from the edge vectors `v0 = B - A`, `v1 = C - A`. -/
def baryDenom (A B C : Vec2) : ℚ :=
  let v0 := sub2 B A
  let v1 := sub2 C A
  dot2 v0 v0 * dot2 v1 v1 - dot2 v0 v1 * dot2 v0 v1

/-- Denominator clamp `denom[np.abs(denom) < 1e-8] = 1e-8` of
`uv_repack.main` (line 131). -/
def clampDenom (d : ℚ) : ℚ :=
  if |d| < 1 / 100000000 then 1 / 100000000 else d

/-- Barycentric weights `(u, v, w)` of pixel center `P` with respect to
triangle `A B C`, exactly as computed in `uv_repack.main` (lines
117-135): `v` and `w` by Cramer's rule over the clamped denominator,
`u = 1 - v - w`. -/
def baryWeights (A B C P : Vec2) : ℚ × ℚ × ℚ :=
  let v0 := sub2 B A
  let v1 := sub2 C A
  let v2 := sub2 P A
  let d00 := dot2 v0 v0
  let d01 := dot2 v0 v1
  let d11 := dot2 v1 v1
  let d20 := dot2 v2 v0
  let d21 := dot2 v2 v1
  let denom := clampDenom (d00 * d11 - d01 * d01)
  let v := (d11 * d20 - d01 * d21) / denom
  let w := (d00 * d21 - d01 * d20) / denom
  (1 - v - w, v, w)

/-- The barycentric denominator is the squared 2-D cross product of the
two edge vectors, hence never negative. -/
lemma baryDenom_nonneg (A B C : Vec2) : 0 ≤ baryDenom A B C := by
  have h : baryDenom A B C =
      ((B.1 - A.1) * (C.2 - A.2) - (B.2 - A.2) * (C.1 - A.1)) ^ 2 := by
    simp only [baryDenom, sub2, dot2]
    ring
  rw [h]
  positivity

/-- Claim C3: when the parsed old/new UV-face lists have different
lengths, the remapper truncates both to the shorter length and proceeds
(no exception is modelled: `truncateFaces` is a total function). -/
theorem truncateFaces_mismatch {α : Type} (old new : List α)
    (h : old.length ≠ new.length) :
    (truncateFaces old new).1.length = min old.length new.length ∧
    (truncateFaces old new).2.length = min old.length new.length := by
  refine ⟨?_, ?_⟩ <;> simp [truncateFaces, h]

theorem truncateFaces_mismatch_witness :
    (List.replicate 100 (0 : Nat)).length ≠ (List.replicate 98 (0 : Nat)).length ∧
    (truncateFaces (List.replicate 100 (0 : Nat)) (List.replicate 98 (0 : Nat))).1.length = 98 ∧
    (truncateFaces (List.replicate 100 (0 : Nat)) (List.replicate 98 (0 : Nat))).2.length = 98 := by
  have h := truncateFaces_mismatch (List.replicate 100 (0 : Nat)) (List.replicate 98 (0 : Nat))
    (by decide)
  exact ⟨by decide, by simpa using h.1, by simpa using h.2⟩

/-- Claim C8: for every triangle, the clamped barycentric denominator is
nonzero and at least `1e-8` in magnitude, so the division in
`baryWeights` is never a division by zero. -/
theorem clampDenom_safe (A B C : Vec2) :
    clampDenom (baryDenom A B C) ≠ 0 ∧
    1 / 100000000 ≤ |clampDenom (baryDenom A B C)| := by
  by_cases h : |baryDenom A B C| < 1 / 100000000
  · simp only [clampDenom, if_pos h]
    refine ⟨by norm_num, ?_⟩
    rw [abs_of_pos (by norm_num)]
  · simp only [clampDenom, if_neg h]
    push_neg at h
    refine ⟨fun h0 => ?_, h⟩
    rw [h0] at h
    simp at h
    exact absurd h (by norm_num)

/-- The `u` weight is definitionally `1 - v - w`. -/
lemma baryWeights_fst (A B C P : Vec2) :
    (baryWeights A B C P).1 =
      1 - (baryWeights A B C P).2.1 - (baryWeights A B C P).2.2 := rfl

/-- For `P = a•A + b•B + c•C` with `a + b + c = 1`, the `v` numerator
collapses to `b` times the (unclamped) denominator. -/
lemma baryWeights_snd_eq (A B C P : Vec2) (a b c : ℚ)
    (habc : a + b + c = 1)
    (hP : P = add2 (smul2 a A) (add2 (smul2 b B) (smul2 c C))) :
    (baryWeights A B C P).2.1 =
      b * baryDenom A B C / clampDenom (baryDenom A B C) := by
  have hx : P.1 = a * A.1 + (b * B.1 + c * C.1) := by rw [hP]; rfl
  have hy : P.2 = a * A.2 + (b * B.2 + c * C.2) := by rw [hP]; rfl
  have ha : a = 1 - b - c := by linarith
  rw [ha] at hx hy
  simp only [baryWeights, baryDenom, sub2, dot2]
  rw [hx, hy]
  congr 1
  ring

/-- For `P = a•A + b•B + c•C` with `a + b + c = 1`, the `w` numerator
collapses to `c` times the (unclamped) denominator. -/
lemma baryWeights_thd_eq (A B C P : Vec2) (a b c : ℚ)
    (habc : a + b + c = 1)
    (hP : P = add2 (smul2 a A) (add2 (smul2 b B) (smul2 c C))) :
    (baryWeights A B C P).2.2 =
      c * baryDenom A B C / clampDenom (baryDenom A B C) := by
  have hx : P.1 = a * A.1 + (b * B.1 + c * C.1) := by rw [hP]; rfl
  have hy : P.2 = a * A.2 + (b * B.2 + c * C.2) := by rw [hP]; rfl
  have ha : a = 1 - b - c := by linarith
  rw [ha] at hx hy
  simp only [baryWeights, baryDenom, sub2, dot2]
  rw [hx, hy]
  congr 1
  ring

/-- The clamped-denominator ratio `D / clampDenom D` always lies in
`[0, 1]` for the nonnegative barycentric denominator. -/
lemma baryDenom_div_clamp (A B C : Vec2) :
    0 ≤ baryDenom A B C / clampDenom (baryDenom A B C) ∧
    baryDenom A B C / clampDenom (baryDenom A B C) ≤ 1 := by
  have hD : 0 ≤ baryDenom A B C := baryDenom_nonneg A B C
  by_cases h : |baryDenom A B C| < 1 / 100000000
  · rw [abs_of_nonneg hD] at h
    simp only [clampDenom, abs_of_nonneg hD, if_pos h]
    constructor
    · positivity
    · rw [div_le_one (by norm_num)]
      exact le_of_lt h
  · rw [abs_of_nonneg hD] at h
    push_neg at h
    have hpos : 0 < baryDenom A B C := lt_of_lt_of_le (by norm_num) h
    simp only [clampDenom, abs_of_nonneg hD, if_neg (not_lt.mpr h)]
    rw [div_self (ne_of_gt hpos)]
    norm_num

/-- Claim C7: for every pixel center `P` lying inside (a convex
combination of) triangle `A B C`, the three weights computed by
`baryWeights` sum to exactly `1` and each lies in `[0, 1]` — in
particular within `[-ε, 1+ε]` — even when the denominator was clamped. -/
theorem baryWeights_inside (A B C P : Vec2) (a b c : ℚ)
    (ha : 0 ≤ a) (hb : 0 ≤ b) (hc : 0 ≤ c) (habc : a + b + c = 1)
    (hP : P = add2 (smul2 a A) (add2 (smul2 b B) (smul2 c C))) :
    (baryWeights A B C P).1 + (baryWeights A B C P).2.1 + (baryWeights A B C P).2.2 = 1 ∧
    0 ≤ (baryWeights A B C P).1 ∧ (baryWeights A B C P).1 ≤ 1 ∧
    0 ≤ (baryWeights A B C P).2.1 ∧ (baryWeights A B C P).2.1 ≤ 1 ∧
    0 ≤ (baryWeights A B C P).2.2 ∧ (baryWeights A B C P).2.2 ≤ 1 := by
  have hv := baryWeights_snd_eq A B C P a b c habc hP
  have hw := baryWeights_thd_eq A B C P a b c habc hP
  have hu := baryWeights_fst A B C P
  obtain ⟨hr0, hr1⟩ := baryDenom_div_clamp A B C
  have hb1 : b ≤ 1 := by linarith
  have hc1 : c ≤ 1 := by linarith
  have hvr : (baryWeights A B C P).2.1 =
      b * (baryDenom A B C / clampDenom (baryDenom A B C)) := by
    rw [hv, mul_div_assoc]
  have hwr : (baryWeights A B C P).2.2 =
      c * (baryDenom A B C / clampDenom (baryDenom A B C)) := by
    rw [hw, mul_div_assoc]
  have hv0 : 0 ≤ (baryWeights A B C P).2.1 := by
    rw [hvr]; exact mul_nonneg hb hr0
  have hvb : (baryWeights A B C P).2.1 ≤ b := by
    rw [hvr]
    calc b * (baryDenom A B C / clampDenom (baryDenom A B C)) ≤ b * 1 :=
          mul_le_mul_of_nonneg_left hr1 hb
      _ = b := mul_one b
  have hw0 : 0 ≤ (baryWeights A B C P).2.2 := by
    rw [hwr]; exact mul_nonneg hc hr0
  have hwc : (baryWeights A B C P).2.2 ≤ c := by
    rw [hwr]
    calc c * (baryDenom A B C / clampDenom (baryDenom A B C)) ≤ c * 1 :=
          mul_le_mul_of_nonneg_left hr1 hc
      _ = c := mul_one c
  refine ⟨by rw [hu]; ring, ?_, ?_, hv0, by linarith, hw0, by linarith⟩
  · rw [hu]; linarith
  · rw [hu]; linarith

theorem baryWeights_inside_witness :
    ((1/4 : ℚ), (1/4 : ℚ)) =
      add2 (smul2 (1/2) ((0 : ℚ), (0 : ℚ)))
        (add2 (smul2 (1/4) ((1 : ℚ), (0 : ℚ))) (smul2 (1/4) ((0 : ℚ), (1 : ℚ)))) ∧
    ((baryWeights ((0:ℚ), (0:ℚ)) (1, 0) (0, 1) (1/4, 1/4)).1 +
        (baryWeights ((0:ℚ), (0:ℚ)) (1, 0) (0, 1) (1/4, 1/4)).2.1 +
        (baryWeights ((0:ℚ), (0:ℚ)) (1, 0) (0, 1) (1/4, 1/4)).2.2 = 1 ∧
      0 ≤ (baryWeights ((0:ℚ), (0:ℚ)) (1, 0) (0, 1) (1/4, 1/4)).1 ∧
      (baryWeights ((0:ℚ), (0:ℚ)) (1, 0) (0, 1) (1/4, 1/4)).1 ≤ 1 ∧
      0 ≤ (baryWeights ((0:ℚ), (0:ℚ)) (1, 0) (0, 1) (1/4, 1/4)).2.1 ∧
      (baryWeights ((0:ℚ), (0:ℚ)) (1, 0) (0, 1) (1/4, 1/4)).2.1 ≤ 1 ∧
      0 ≤ (baryWeights ((0:ℚ), (0:ℚ)) (1, 0) (0, 1) (1/4, 1/4)).2.2 ∧
      (baryWeights ((0:ℚ), (0:ℚ)) (1, 0) (0, 1) (1/4, 1/4)).2.2 ≤ 1) :=
  ⟨by norm_num [add2, smul2],
   baryWeights_inside ((0:ℚ), (0:ℚ)) (1, 0) (0, 1) (1/4, 1/4) (1/2) (1/4) (1/4)
     (by norm_num) (by norm_num) (by norm_num) (by norm_num)
     (by norm_num [add2, smul2])⟩

/-- One face-line vertex entry of `load_obj_uv` (lines 28-31), given as
the `'/'`-split fields of the entry: the entry contributes a (0-based)
UV index exactly when it has a second, nonempty field.  (`int()` parsing
is modelled by `String.toInt?` with default `0`; only presence matters
for the claims.) -/
def entryUV (vals : List String) : Option Int :=
  if vals.length > 1 ∧ vals.getD 1 "" ≠ "" then
    some ((vals.getD 1 "").toInt?.getD 0 - 1)
  else none

/-- UV indices collected from one face line (`load_obj_uv` lines 27-31). -/
def faceUVIndices (entries : List (List String)) : List Int :=
  entries.filterMap entryUV

/-- Fan triangulation `(0, i+1, i+2)` of one face line's UV indices
(`load_obj_uv` lines 33-35); Python's `range(len - 2)` is empty when
fewer than three UV indices were collected, as is `Nat` subtraction. -/
def fanUVFaces (entries : List (List String)) : List (Int × Int × Int) :=
  let uv := faceUVIndices entries
  (List.range (uv.length - 2)).map
    (fun i => (uv.getD 0 0, uv.getD (i + 1) 0, uv.getD (i + 2) 0))

lemma filterMap_length_of_isSome {α β : Type} (f : α → Option β) (l : List α)
    (h : ∀ e ∈ l, (f e).isSome) : (l.filterMap f).length = l.length := by
  induction l with
  | nil => rfl
  | cons hd tl ih =>
    obtain ⟨v, hv⟩ := Option.isSome_iff_exists.mp (h hd (List.mem_cons_self hd tl))
    rw [List.filterMap_cons, hv]
    simp only [List.length_cons]
    rw [ih (fun e he => h e (List.mem_cons_of_mem hd he))]

/-- Claim C9: a face line whose entries all carry a UV index yields one
collected UV index per vertex and exactly `n - 2` fan triples of the
form `(uv 0, uv (i+1), uv (i+2))`; a plain `f i1 i2 i3` line (every
entry a single field) yields no UV face at all. -/
theorem fanUVFaces_spec (entries : List (List String)) :
    ((∀ e ∈ entries, (entryUV e).isSome) →
      (faceUVIndices entries).length = entries.length ∧
      (fanUVFaces entries).length = entries.length - 2 ∧
      ∀ i, i < entries.length - 2 →
        (fanUVFaces entries).getD i (0, 0, 0) =
          ((faceUVIndices entries).getD 0 0,
           (faceUVIndices entries).getD (i + 1) 0,
           (faceUVIndices entries).getD (i + 2) 0)) ∧
    ((∀ e ∈ entries, e.length = 1) → fanUVFaces entries = []) := by
  constructor
  · intro hall
    have hlen : (faceUVIndices entries).length = entries.length :=
      filterMap_length_of_isSome entryUV entries hall
    refine ⟨hlen, ?_, ?_⟩
    · simp [fanUVFaces, hlen]
    · intro i hi
      have hi' : i < (faceUVIndices entries).length - 2 := by rw [hlen]; exact hi
      simp only [fanUVFaces, List.getD, List.get?_map, List.get?_range hi',
        Option.map_some', Option.getD_some]
  · intro hall
    have hnone : ∀ e ∈ entries, entryUV e = none := by
      intro e he
      have h1 := hall e he
      simp [entryUV, h1]
    have hempty : faceUVIndices entries = [] := by
      simp only [faceUVIndices]
      rw [List.filterMap_eq_nil_iff]
      exact hnone
    simp [fanUVFaces, hempty]

theorem fanUVFaces_spec_witness :
    (∀ e ∈ [["1", "10"], ["2", "20"], ["3", "30"], ["4", "40"]], (entryUV e).isSome) ∧
    (faceUVIndices [["1", "10"], ["2", "20"], ["3", "30"], ["4", "40"]]).length =
      ([["1", "10"], ["2", "20"], ["3", "30"], ["4", "40"]] : List (List String)).length ∧
    (fanUVFaces [["1", "10"], ["2", "20"], ["3", "30"], ["4", "40"]]).length =
      ([["1", "10"], ["2", "20"], ["3", "30"], ["4", "40"]] : List (List String)).length - 2 :=
  ⟨by decide,
   ((fanUVFaces_spec [["1", "10"], ["2", "20"], ["3", "30"], ["4", "40"]]).1 (by decide)).1,
   ((fanUVFaces_spec [["1", "10"], ["2", "20"], ["3", "30"], ["4", "40"]]).1 (by decide)).2.1⟩

/-- A pixel cell of the TriangleOwnershipMap (`uv_repack.main`, lines
72-90): triangles are drawn in face order with fill value `i + 1`
(`0` is the background), so per pixel the fold keeps the value of the
last face whose rasterized footprint (`covers`, abstracting PIL's
`draw.polygon`) contains the pixel. -/
def paintCell (covers : Nat → Nat × Nat → Bool) (nFaces : Nat) (p : Nat × Nat) : Nat :=
  (List.range nFaces).foldl (fun acc i => if covers i p then i + 1 else acc) 0

/-- The resampling step's old-face lookup (`uv_repack.main`, lines
96-143): non-background cells use `face_map - 1` to index the old-UV
face list. -/
def resampleOldFace (oldFaces : List (Nat × Nat × Nat))
    (covers : Nat → Nat × Nat → Bool) (nFaces : Nat) (p : Nat × Nat) :
    Option (Nat × Nat × Nat) :=
  if paintCell covers nFaces p = 0 then none
  else oldFaces.get? (paintCell covers nFaces p - 1)

lemma paintCell_succ (covers : Nat → Nat × Nat → Bool) (n : Nat) (p : Nat × Nat) :
    paintCell covers (n + 1) p =
      if covers n p then n + 1 else paintCell covers n p := by
  simp [paintCell, List.range_succ]

/-- Claim C10: every ownership-map cell is either the background `0`
(no face covers it) or `i + 1` for the highest-index face `i` whose
footprint covers the cell, and resampling then uses exactly that face's
old-UV triangle. -/
theorem paintCell_spec (covers : Nat → Nat × Nat → Bool) (nFaces : Nat) (p : Nat × Nat)
    (oldFaces : List (Nat × Nat × Nat)) :
    (paintCell covers nFaces p = 0 ∧ (∀ i, i < nFaces → covers i p = false) ∧
       resampleOldFace oldFaces covers nFaces p = none) ∨
    (∃ i, i < nFaces ∧ covers i p = true ∧ paintCell covers nFaces p = i + 1 ∧
       (∀ j, i < j → j < nFaces → covers j p = false) ∧
       resampleOldFace oldFaces covers nFaces p = oldFaces.get? i) := by
  induction nFaces with
  | zero =>
    left
    refine ⟨rfl, fun i hi => absurd hi (Nat.not_lt_zero i), ?_⟩
    simp [resampleOldFace, paintCell]
  | succ n ih =>
    by_cases hc : covers n p = true
    · right
      refine ⟨n, Nat.lt_succ_self n, hc, ?_, ?_, ?_⟩
      · rw [paintCell_succ, if_pos hc]
      · intro j hj hj'
        omega
      · rw [resampleOldFace, paintCell_succ, if_pos hc]
        simp
    · have hc' : covers n p = false := by
        cases h : covers n p
        · rfl
        · exact absurd h hc
      have hpaint : paintCell covers (n + 1) p = paintCell covers n p := by
        rw [paintCell_succ, if_neg (by simp [hc'])]
      have hres : resampleOldFace oldFaces covers (n + 1) p =
          resampleOldFace oldFaces covers n p := by
        rw [resampleOldFace, resampleOldFace, hpaint]
      rcases ih with ⟨h0, hnone, hr⟩ | ⟨i, hi, hci, hpi, hafter, hri⟩
      · left
        refine ⟨by rw [hpaint]; exact h0, ?_, by rw [hres]; exact hr⟩
        intro i hi
        rcases Nat.lt_succ_iff_lt_or_eq.mp hi with h | h
        · exact hnone i h
        · rw [h]; exact hc'
      · right
        refine ⟨i, Nat.lt_succ_of_lt hi, hci, by rw [hpaint]; exact hpi, ?_,
          by rw [hres]; exact hri⟩
        intro j hj hj'
        rcases Nat.lt_succ_iff_lt_or_eq.mp hj' with h | h
        · exact hafter j hj h
        · rw [h]; exact hc'

/-! ## CylinderSegmenter (`scripts/preprocess.py`, `extract_stable_cylinder`) -/

/-- `np.linspace(z_min, z_max, bins + 1)` edge `j` (line 80). -/
def binEdge (zmin zmax : ℚ) (bins j : Nat) : ℚ :=
  zmin + j * (zmax - zmin) / bins

/-- The vertices of one 1-based height bin `i` (`bin_indices == i`,
lines 82-87): `np.digitize` places `z` in bin `i` iff
`edges[i-1] ≤ z < edges[i]`.  A vertex is the pair of its height and
its planar radius `‖(x, y)‖` (the radius enters as data, line 78). -/
def binMembers (verts : List (ℚ × ℚ)) (zmin zmax : ℚ) (bins i : Nat) : List ℚ :=
  (verts.filter (fun vr =>
    decide (binEdge zmin zmax bins (i - 1) ≤ vr.1) &&
    decide (vr.1 < binEdge zmin zmax bins i))).map Prod.snd

/-- `np.percentile(·, 90)` with NumPy's default linear interpolation:
sort ascending, index `h = 0.9 * (n - 1)`, interpolate between the two
neighbouring order statistics. -/
def percentile90 (l : List ℚ) : ℚ :=
  let s := l.insertionSort (· ≤ ·)
  let n := l.length
  let lo := 9 * (n - 1) / 10
  let frac : ℚ := 9 * ((n : ℚ) - 1) / 10 - (lo : ℚ)
  if lo + 1 < n then s.getD lo 0 + frac * (s.getD (lo + 1) 0 - s.getD lo 0)
  else s.getD lo 0

/-- The profile-building loop (lines 84-93) as a structural recursion:
entry `i` is appended after entries `0..i-1`, using the 90th-percentile
radius when bin `i+1` is nonempty and otherwise copying the previous
entry (`profile_r[-1]`), or `0` when there is none. -/
def profAux (step : Nat → List ℚ → ℚ) : Nat → List ℚ
  | 0 => []
  | n + 1 => profAux step n ++ [step n (profAux step n)]

/-- One loop iteration of lines 85-93 (0-based `i` for bin `i + 1`). -/
def profStep (verts : List (ℚ × ℚ)) (zmin zmax : ℚ) (bins : Nat)
    (i : Nat) (acc : List ℚ) : ℚ :=
  if binMembers verts zmin zmax bins (i + 1) = [] then (acc.getLast?).getD 0
  else percentile90 (binMembers verts zmin zmax bins (i + 1))

/-- The radius profile `profile_r` of `extract_stable_cylinder`. -/
def buildProfile (verts : List (ℚ × ℚ)) (zmin zmax : ℚ) (bins : Nat) : List ℚ :=
  profAux (profStep verts zmin zmax bins) bins

lemma profAux_length (step : Nat → List ℚ → ℚ) (n : Nat) :
    (profAux step n).length = n := by
  induction n with
  | zero => rfl
  | succ m ih => simp [profAux, ih]

lemma profAux_getD_stable (step : Nat → List ℚ → ℚ) (i : Nat) :
    ∀ n, i < n → (profAux step n).getD i 0 = (profAux step (i + 1)).getD i 0 := by
  intro n
  induction n with
  | zero => intro h; exact absurd h (Nat.not_lt_zero i)
  | succ m ih =>
    intro h
    rcases Nat.lt_succ_iff_lt_or_eq.mp h with h' | h'
    · rw [← ih h']
      simp only [profAux]
      rw [List.getD_append _ _ _ _ (by rw [profAux_length]; exact h')]
    · rw [h']

lemma profAux_getD_succ (step : Nat → List ℚ → ℚ) (i : Nat) :
    (profAux step (i + 1)).getD i 0 = step i (profAux step i) := by
  simp only [profAux]
  rw [List.getD_append_right _ _ _ _ (by rw [profAux_length])]
  simp [profAux_length]

lemma profAux_getLast (step : Nat → List ℚ → ℚ) (j : Nat) :
    (profAux step (j + 1)).getLast?.getD 0 = step j (profAux step j) := by
  simp [profAux, List.getLast?_concat]

/-- Claim C6: for positive height and any bin count, the radius profile
has exactly `bins` entries, a nonempty bin holds the 90th-percentile
planar radius of its vertices, and an empty bin copies the previous
entry (or `0` for the very first bin). -/
theorem buildProfile_spec (verts : List (ℚ × ℚ)) (zmin zmax : ℚ) (bins : Nat)
    (hheight : 0 < zmax - zmin) :
    (buildProfile verts zmin zmax bins).length = bins ∧
    ∀ i, i < bins →
      (binMembers verts zmin zmax bins (i + 1) ≠ [] →
        (buildProfile verts zmin zmax bins).getD i 0 =
          percentile90 (binMembers verts zmin zmax bins (i + 1))) ∧
      (binMembers verts zmin zmax bins (i + 1) = [] → i = 0 →
        (buildProfile verts zmin zmax bins).getD i 0 = 0) ∧
      (binMembers verts zmin zmax bins (i + 1) = [] → 0 < i →
        (buildProfile verts zmin zmax bins).getD i 0 =
          (buildProfile verts zmin zmax bins).getD (i - 1) 0) := by
  refine ⟨profAux_length _ bins, ?_⟩
  intro i hi
  have hstable := profAux_getD_stable (profStep verts zmin zmax bins) i bins hi
  have hsucc := profAux_getD_succ (profStep verts zmin zmax bins) i
  refine ⟨?_, ?_, ?_⟩
  · intro hne
    rw [buildProfile, hstable, hsucc, profStep, if_neg hne]
  · intro hemp h0
    subst h0
    rw [buildProfile, hstable, hsucc, profStep, if_pos hemp]
    rfl
  · intro hemp hpos
    obtain ⟨j, rfl⟩ : ∃ j, i = j + 1 := ⟨i - 1, by omega⟩
    rw [buildProfile, hstable, hsucc, profStep, if_pos hemp]
    rw [profAux_getLast]
    have h2 := profAux_getD_stable (profStep verts zmin zmax bins) j bins (by omega)
    simp only [Nat.add_sub_cancel]
    rw [h2, profAux_getD_succ]

theorem buildProfile_spec_witness :
    (0 : ℚ) < 2 - 0 ∧
    (buildProfile [((0 : ℚ), (1 : ℚ)), (1, 2)] 0 2 4).length = 4 := by
  have h := buildProfile_spec [((0 : ℚ), (1 : ℚ)), (1, 2)] 0 2 4 (by norm_num)
  exact ⟨by norm_num, h.1⟩

/-- Grouping of consecutive stable bins into segments
(`extract_stable_cylinder`, lines 115-127): indices with a `true`
stability flag accumulate into the current run; a `false` flag flushes
a nonempty run; the trailing run is flushed after the loop. -/
def groupStable (stable : List Bool) : List (List Nat) :=
  let r := stable.enum.foldl
    (fun (acc : List (List Nat) × List Nat) p =>
      if p.2 then (acc.1, acc.2 ++ [p.1])
      else if acc.2 = [] then acc else (acc.1 ++ [acc.2], []))
    ([], [])
  if r.2 = [] then r.1 else r.1 ++ [r.2]

/-- Segment selection (`extract_stable_cylinder`, lines 129-160): with
no segments at all, fall back to the middle 50% of bin indices
(`range(int(bins*0.25), int(bins*0.75))`); otherwise keep the
best-scoring segment among those of length at least 5% of `bins`,
starting from `best_score = -1`; exit fatally if nothing was kept.
The score `len * mean_radius ** 0.3` is passed in as a function (its
irrational exponent has no exact rational embedding); the code
guarantees it is nonnegative. -/
def selectBody (bins : Nat) (score : List Nat → ℚ) (stable : List Bool) :
    Except String (List Nat) :=
  let segments := groupStable stable
  let best :=
    if segments = [] then
      List.range' (bins * 25 / 100) (bins * 75 / 100 - bins * 25 / 100)
    else
      (segments.foldl
        (fun (b : ℚ × List Nat) seg =>
          if (seg.length : ℚ) < (bins : ℚ) * (5 / 100) then b
          else if score seg > b.1 then (score seg, seg) else b)
        (-1, [])).2
  if best = [] then Except.error "Error: No valid body segment found."
  else Except.ok best

/-- Claim C1 counterexample: with `bins = 40` and a single stable bin
(one segment of length 1 < 5% of 40 = 2), the code does not fall back
to the middle 50% — it fails fatally. -/
theorem selectBody_short_segment_fails :
    groupStable (List.replicate 5 false ++ [true] ++ List.replicate 34 false) = [[5]] ∧
    selectBody 40 (fun seg => (seg.length : ℚ))
        (List.replicate 5 false ++ [true] ++ List.replicate 34 false) =
      Except.error "Error: No valid body segment found." := by
  constructor
  · rfl
  · have hg : groupStable (List.replicate 5 false ++ [true] ++ List.replicate 34 false) =
        [[5]] := rfl
    rw [selectBody, hg]
    norm_num

lemma foldl_keep_init {α β : Type} (f : β → α → β) (cond : α → Prop)
    [DecidablePred cond] (hf : ∀ b a, cond a → f b a = b) :
    ∀ (l : List α) (init : β), (∀ a ∈ l, cond a) → l.foldl f init = init := by
  intro l
  induction l with
  | nil => intro init _; rfl
  | cons hd tl ih =>
    intro init hall
    rw [List.foldl_cons, hf init hd (hall hd (List.mem_cons_self hd tl))]
    exact ih init (fun a ha => hall a (List.mem_cons_of_mem hd ha))

/-- Claim C1 (amended): with at least two bins, the middle-50% fallback
is taken only when there are no stable segments at all; when segments
exist but every one is shorter than 5% of the bin count, the stage
fails fatally instead of falling back. -/
theorem selectBody_fallback_or_fail (bins : Nat) (score : List Nat → ℚ)
    (stable : List Bool) (hbins : 2 ≤ bins) :
    (groupStable stable = [] →
      ∃ l, selectBody bins score stable = Except.ok l ∧
        ∀ i, i ∈ l ↔ (bins * 25 / 100 ≤ i ∧ i < bins * 75 / 100)) ∧
    ((groupStable stable ≠ [] ∧
        ∀ seg ∈ groupStable stable, (seg.length : ℚ) < (bins : ℚ) * (5 / 100)) →
      selectBody bins score stable =
        Except.error "Error: No valid body segment found.") := by
  constructor
  · intro hempty
    have hlt : bins * 25 / 100 < bins * 75 / 100 := by omega
    have hne : List.range' (bins * 25 / 100) (bins * 75 / 100 - bins * 25 / 100) ≠ [] := by
      intro hcontra
      have hl : (List.range' (bins * 25 / 100) (bins * 75 / 100 - bins * 25 / 100)).length = 0 := by
        rw [hcontra]; rfl
      rw [List.length_range'] at hl
      omega
    refine ⟨List.range' (bins * 25 / 100) (bins * 75 / 100 - bins * 25 / 100), ?_, ?_⟩
    · rw [selectBody, hempty]
      simp [hne]
    · intro i
      rw [List.mem_range'_1]
      omega
  · rintro ⟨hne, hshort⟩
    have hfold : (groupStable stable).foldl
        (fun (b : ℚ × List Nat) seg =>
          if (seg.length : ℚ) < (bins : ℚ) * (5 / 100) then b
          else if score seg > b.1 then (score seg, seg) else b)
        (-1, []) = (-1, []) := by
      refine foldl_keep_init _ (fun seg => (seg.length : ℚ) < (bins : ℚ) * (5 / 100))
        ?_ _ _ hshort
      intro b a hc
      rw [if_pos hc]
    rw [selectBody, if_neg hne, hfold]
    rfl

theorem selectBody_fallback_or_fail_witness :
    2 ≤ 40 ∧
    ((groupStable [false, true, false] = [] →
      ∃ l, selectBody 40 (fun seg => (seg.length : ℚ)) [false, true, false] = Except.ok l ∧
        ∀ i, i ∈ l ↔ (40 * 25 / 100 ≤ i ∧ i < 40 * 75 / 100)) ∧
    ((groupStable [false, true, false] ≠ [] ∧
        ∀ seg ∈ groupStable [false, true, false],
          (seg.length : ℚ) < (40 : ℚ) * (5 / 100)) →
      selectBody 40 (fun seg => (seg.length : ℚ)) [false, true, false] =
        Except.error "Error: No valid body segment found.")) :=
  ⟨by norm_num,
   selectBody_fallback_or_fail 40 (fun seg => (seg.length : ℚ)) [false, true, false]
     (by norm_num)⟩

/-! ## MeshAligner (`scripts/preprocess.py`, `align_robust`) -/

/-- 3-D vector with rational coordinates. -/
abbrev Vec3 := ℚ × ℚ × ℚ

def dot3 (a b : Vec3) : ℚ := a.1 * b.1 + a.2.1 * b.2.1 + a.2.2 * b.2.2

def cross3 (a b : Vec3) : Vec3 :=
  (a.2.1 * b.2.2 - a.2.2 * b.2.1,
   a.2.2 * b.1 - a.1 * b.2.2,
   a.1 * b.2.1 - a.2.1 * b.1)

def add3 (a b : Vec3) : Vec3 := (a.1 + b.1, a.2.1 + b.2.1, a.2.2 + b.2.2)

def smul3 (c : ℚ) (a : Vec3) : Vec3 := (c * a.1, c * a.2.1, c * a.2.2)

def normSq3 (a : Vec3) : ℚ := dot3 a a

/-- The fixed reference axis `target_axis = [0, 0, 1]` (line 43). -/
def zAxis : Vec3 := (0, 0, 1)

/-- `np.clip(·, -1, 1)` (line 49). -/
def clip1 (x : ℚ) : ℚ := max (-1) (min x 1)

/-- The rotation gate of `align_robust` (line 47): rotation is applied
iff `np.linalg.norm(np.cross(principal_axis, target_axis)) > 1e-6`;
comparing the squared norm with `1e-12` is equivalent since both sides
are nonnegative. -/
def rotationTriggered (axis : Vec3) : Bool :=
  decide (normSq3 (cross3 axis zAxis) > (1 / 1000000) ^ 2)

/-- Rodrigues rotation by an angle with cosine `c` and sine `s` about
unit axis `k` — the matrix built by
`trimesh.transformations.rotation_matrix(angle, rotation_axis)` (line
50) applied to a vector, with `c = cos(angle)`, `s = sin(angle)`. -/
def rodrigues (c s : ℚ) (k v : Vec3) : Vec3 :=
  add3 (add3 (smul3 c v) (smul3 s (cross3 k v))) (smul3 ((1 - c) * dot3 k v) k)

/-- The rotation step of `align_robust` (lines 44-51) applied to the
principal axis itself: angle `= arccos(clip(dot(axis, z)))` so the
cosine is the clamped dot product and the sine is the caller-supplied
`s = ‖cross(axis, z)‖` (the one irrational quantity, passed as a
parameter constrained by `s² = ‖cross‖²`); rotation axis is the cross
product normalized by `s`. -/
def alignRotate (v : Vec3) (s : ℚ) : Vec3 :=
  rodrigues (clip1 (dot3 v zAxis)) s (smul3 (1 / s) (cross3 v zAxis)) v

/-- The whole axis-alignment branch (lines 44-51): rotate only when the
gate triggers, otherwise leave the mesh (and so the axis) unrotated. -/
def alignStep (v : Vec3) (s : ℚ) : Vec3 :=
  if rotationTriggered v then alignRotate v s else v

/-- Claim C2 counterexample: an axis pointing exactly opposite the
reference axis (`dot = -1`, as far from aligned as possible) does not
trigger the rotation — the cross product vanishes — so the axis is left
at `-Z` and never mapped onto `+Z`. -/
theorem alignStep_antiparallel_skipped :
    rotationTriggered ((0 : ℚ), (0 : ℚ), (-1 : ℚ)) = false ∧
    dot3 ((0 : ℚ), (0 : ℚ), (-1 : ℚ)) zAxis = -1 ∧
    alignStep ((0 : ℚ), (0 : ℚ), (-1 : ℚ)) 1 = ((0 : ℚ), (0 : ℚ), (-1 : ℚ)) ∧
    alignStep ((0 : ℚ), (0 : ℚ), (-1 : ℚ)) 1 ≠ zAxis := by
  have hr : rotationTriggered ((0 : ℚ), (0 : ℚ), (-1 : ℚ)) = false := by
    rw [rotationTriggered, decide_eq_false_iff_not]
    norm_num [normSq3, cross3, dot3, zAxis]
  refine ⟨hr, by norm_num [dot3, zAxis], ?_, ?_⟩
  · rw [alignStep, hr]
    simp
  · rw [alignStep, hr]
    simp [zAxis]
    norm_num

/-- Claim C2 (amended, positive part): whenever the gate does trigger —
the cross-product norm `s = ‖axis × z‖` exceeds `1e-6` — the applied
rotation (axis = cross product normalized by `s`, cosine = clamped dot,
sine = `s`) maps the unit principal axis exactly onto the reference
axis `Z`. -/
theorem alignRotate_maps_axis_to_z (x y z s : ℚ)
    (hunit : x ^ 2 + y ^ 2 + z ^ 2 = 1)
    (hs : s ^ 2 = x ^ 2 + y ^ 2) (hspos : 1 / 1000000 < s) :
    rotationTriggered (x, y, z) = true ∧ alignRotate (x, y, z) s = zAxis := by
  have hs0 : s ≠ 0 := ne_of_gt (by linarith)
  have hz1 : z ≤ 1 := by nlinarith
  have hz1' : -1 ≤ z := by nlinarith
  have hclip : clip1 z = z := by
    rw [clip1, min_eq_left hz1, max_eq_right hz1']
  constructor
  · rw [rotationTriggered, decide_eq_true_eq]
    have hns : normSq3 (cross3 (x, y, z) zAxis) = y ^ 2 + x ^ 2 := by
      norm_num [normSq3, cross3, dot3, zAxis]
      ring
    rw [hns]
    nlinarith
  · simp only [alignRotate, rodrigues, cross3, dot3, add3, smul3, zAxis,
      Prod.mk.injEq]
    refine ⟨?_, ?_, ?_⟩
    · field_simp
      rw [hclip]
      ring
    · field_simp
      rw [hclip]
      ring
    · field_simp
      rw [hclip]
      linear_combination hunit

theorem alignRotate_maps_axis_to_z_witness :
    ((3 / 5 : ℚ) ^ 2 + (0 : ℚ) ^ 2 + (4 / 5 : ℚ) ^ 2 = 1) ∧
    ((3 / 5 : ℚ) ^ 2 = (3 / 5 : ℚ) ^ 2 + (0 : ℚ) ^ 2) ∧
    ((1 / 1000000 : ℚ) < 3 / 5) ∧
    (rotationTriggered ((3 / 5 : ℚ), (0 : ℚ), (4 / 5 : ℚ)) = true ∧
      alignRotate ((3 / 5 : ℚ), (0 : ℚ), (4 / 5 : ℚ)) (3 / 5) = zAxis) :=
  ⟨by norm_num, by norm_num, by norm_num,
   alignRotate_maps_axis_to_z (3 / 5) 0 (4 / 5) (3 / 5)
     (by norm_num) (by norm_num) (by norm_num)⟩

/-! ## SeamPathFinder (`scripts/seam_extract.py`, `extract_seam`) -/

/-- A triangle mesh as loaded by trimesh: vertex positions and faces of
vertex-index triples. -/
structure MeshQ where
  verts : List Vec3
  faces : List (Nat × Nat × Nat)

/-- A face edge in sorted-endpoint form (`mesh.edges_sorted`). -/
def sortPair (a b : Nat) : Nat × Nat := if a ≤ b then (a, b) else (b, a)

/-- The three sorted edges of one face. -/
def faceEdges (f : Nat × Nat × Nat) : List (Nat × Nat) :=
  [sortPair f.1 f.2.1, sortPair f.2.1 f.2.2, sortPair f.2.2 f.1]

/-- All face edges of the mesh, with multiplicity. -/
def allEdges (m : MeshQ) : List (Nat × Nat) := (m.faces.map faceEdges).flatten

/-- A vertex is a boundary vertex iff it is an endpoint of an edge that
occurs exactly once among all face edges (`extract_seam` lines 12-16:
`group_rows(edges_sorted, require_count=1)` then `unique(flatten)`). -/
def isBoundaryVert (m : MeshQ) (i : Nat) : Bool :=
  (allEdges m).any (fun e =>
    ((allEdges m).count e == 1) && (e.1 == i || e.2 == i))

/-- The sorted unique boundary-vertex indices (`np.unique` returns them
sorted ascending; face indices are `< verts.length` for a valid mesh). -/
def boundaryIdxs (m : MeshQ) : List Nat :=
  (List.range m.verts.length).filter (isBoundaryVert m)

def vertAt (m : MeshQ) (i : Nat) : Vec3 := m.verts.getD i (0, 0, 0)

def xOf (m : MeshQ) (i : Nat) : ℚ := (vertAt m i).1

def zOf (m : MeshQ) (i : Nat) : ℚ := (vertAt m i).2.2

/-- Mean Z of the boundary vertices (`extract_seam` lines 24-25). -/
def zMeanB (m : MeshQ) : ℚ :=
  ((boundaryIdxs m).map (zOf m)).sum / ((boundaryIdxs m).length : ℚ)

/-- `top_indices = boundary_indices[z_values > z_mean]` (line 27):
strictly above the mean. -/
def topIdxs (m : MeshQ) : List Nat :=
  (boundaryIdxs m).filter (fun i => decide (zMeanB m < zOf m i))

/-- `bottom_indices = boundary_indices[z_values < z_mean]` (line 28):
strictly below the mean. -/
def bottomIdxs (m : MeshQ) : List Nat :=
  (boundaryIdxs m).filter (fun i => decide (zOf m i < zMeanB m))

/-- Squared Euclidean distance; `np.argmin` over distances equals
argmin over squared distances (squaring is strictly monotone on
nonnegative reals, so order and ties are preserved exactly). -/
def dist3Sq (a b : Vec3) : ℚ :=
  (a.1 - b.1) ^ 2 + (a.2.1 - b.2.1) ^ 2 + (a.2.2 - b.2.2) ^ 2

/-- Whether `u`-`v` is an edge of face `f` (in either direction). -/
def edgeMatch (a b u v : Nat) : Bool := (a == u && b == v) || (a == v && b == u)

/-- The vertex-adjacency graph of the mesh
(`mesh.vertex_adjacency_graph`): one undirected edge per face edge. -/
def adjB (m : MeshQ) (u v : Nat) : Bool :=
  m.faces.any (fun f =>
    edgeMatch f.1 f.2.1 u v || edgeMatch f.2.1 f.2.2 u v || edgeMatch f.2.2 f.1 u v)

/-- One-step neighbourhood of a vertex set, restricted to the vertex
range. -/
def nbrsB (adj : Nat → Nat → Bool) (V : Nat) (frontier : List Nat) : List Nat :=
  (List.range V).filter (fun v => frontier.any (fun u => adj u v))

/-- `ballB adj V s n`: every vertex reachable from `s` in at most `n`
steps — the layer structure of breadth-first search, embedding
`networkx.shortest_path` on the unweighted adjacency graph. -/
def ballB (adj : Nat → Nat → Bool) (V s : Nat) : Nat → List Nat
  | 0 => [s]
  | n + 1 => (ballB adj V s n ++ nbrsB adj V (ballB adj V s n)).dedup

/-- Linear search for the first `n ≥ start` (within `fuel`) satisfying
`p` — used to find the breadth-first distance. -/
def searchFrom (p : Nat → Bool) : Nat → Nat → Option Nat
  | 0, _ => none
  | fuel + 1, n => if p n then some n else searchFrom p fuel (n + 1)

/-- Breadth-first distance from `s` to `t` (`none` when `t` is not
reached within `V` steps, i.e. the graph is disconnected between them —
networkx raises `NetworkXNoPath`, handled at line 51). -/
def bfsDist (adj : Nat → Nat → Bool) (V s t : Nat) : Option Nat :=
  searchFrom (fun n => decide (t ∈ ballB adj V s n)) (V + 1) 0

/-- Path reconstruction: walk back one breadth-first layer at a time,
prepending a predecessor adjacent to the current vertex. -/
def pathAux (adj : Nat → Nat → Bool) (V s : Nat) : Nat → Nat → List Nat
  | 0, t => [t]
  | d + 1, t =>
    match (ballB adj V s d).find? (fun u => adj u t) with
    | some u => pathAux adj V s d u ++ [t]
    | none => [t]

/-- A shortest path from `s` to `t` in the adjacency graph, as returned
by `nx.shortest_path` (line 50). -/
def shortestPath (adj : Nat → Nat → Bool) (V s t : Nat) : Option (List Nat) :=
  match bfsDist adj V s t with
  | none => none
  | some d => some (pathAux adj V s d t)

/-- `extract_seam` (lines 6-53) up to the file write: boundary
detection, top/bottom split by mean height, start = leftmost (minimum
X) top vertex, end = bottom vertex closest to the start, then a
shortest path in the vertex-adjacency graph.  `none` models the
reported, non-fatal error returns. -/
def extractSeam (m : MeshQ) : Option (List Nat) :=
  if boundaryIdxs m = [] then none
  else if topIdxs m = [] ∨ bottomIdxs m = [] then none
  else
    match (topIdxs m).argmin (xOf m) with
    | none => none
    | some s =>
      match (bottomIdxs m).argmin (fun j => dist3Sq (vertAt m j) (vertAt m s)) with
      | none => none
      | some t => shortestPath (adjB m) m.verts.length s t

/-- A single triangle with heights 0, 1, 2: all three vertices are
boundary vertices and the middle one sits exactly at the mean height. -/
def meshTri : MeshQ := ⟨[(0, 0, 0), (1, 0, 1), (0, 1, 2)], [(0, 1, 2)]⟩

/-- Claim C4 counterexample: in `meshTri` the mean boundary height is 1
and vertex 1 has height exactly 1, so the strict comparisons on lines
27-28 place it in neither the top nor the bottom group. -/
theorem boundary_split_gap :
    1 ∈ boundaryIdxs meshTri ∧ 1 ∉ topIdxs meshTri ∧ 1 ∉ bottomIdxs meshTri := by
  have h : boundaryIdxs meshTri = [0, 1, 2] := by decide
  have hm : zMeanB meshTri = 1 := by
    rw [zMeanB, h]
    norm_num [zOf, vertAt, meshTri]
  have hz0 : zOf meshTri 0 = 0 := rfl
  have hz1 : zOf meshTri 1 = 1 := rfl
  have hz2 : zOf meshTri 2 = 2 := rfl
  have htop : topIdxs meshTri = [2] := by
    rw [topIdxs, h]
    simp only [List.filter_cons, List.filter_nil, hm, hz0, hz1, hz2]
    norm_num
  have hbot : bottomIdxs meshTri = [0] := by
    rw [bottomIdxs, h]
    simp only [List.filter_cons, List.filter_nil, hm, hz0, hz1, hz2]
    norm_num
  rw [h, htop, hbot]
  refine ⟨by norm_num, by norm_num, by norm_num⟩

/-- Claim C4 (amended): the mean-height threshold uses strict
comparisons on both sides, so each boundary vertex lands in the top
group iff it is strictly above the mean and in the bottom group iff
strictly below; the groups are disjoint, every boundary vertex not at
the mean is in exactly one group, and a boundary vertex exactly at the
mean is in neither. -/
theorem topBottom_split (m : MeshQ) (i : Nat) (hi : i ∈ boundaryIdxs m) :
    (i ∈ topIdxs m ↔ zMeanB m < zOf m i) ∧
    (i ∈ bottomIdxs m ↔ zOf m i < zMeanB m) ∧
    ¬(i ∈ topIdxs m ∧ i ∈ bottomIdxs m) ∧
    (zOf m i ≠ zMeanB m → (i ∈ topIdxs m ∨ i ∈ bottomIdxs m)) ∧
    (zOf m i = zMeanB m → (i ∉ topIdxs m ∧ i ∉ bottomIdxs m)) := by
  simp only [topIdxs, bottomIdxs, List.mem_filter, decide_eq_true_eq]
  refine ⟨⟨fun h => h.2, fun h => ⟨hi, h⟩⟩, ⟨fun h => h.2, fun h => ⟨hi, h⟩⟩, ?_, ?_, ?_⟩
  · rintro ⟨⟨-, h1⟩, ⟨-, h2⟩⟩
    exact absurd h1 (not_lt.mpr (le_of_lt h2))
  · intro hne
    rcases lt_or_gt_of_ne hne with h | h
    · exact Or.inr ⟨hi, h⟩
    · exact Or.inl ⟨hi, h⟩
  · intro heq
    constructor
    · rintro ⟨-, h⟩
      rw [heq] at h
      exact lt_irrefl _ h
    · rintro ⟨-, h⟩
      rw [heq] at h
      exact lt_irrefl _ h

theorem topBottom_split_witness :
    0 ∈ boundaryIdxs meshTri ∧
    ((0 ∈ topIdxs meshTri ↔ zMeanB meshTri < zOf meshTri 0) ∧
     (0 ∈ bottomIdxs meshTri ↔ zOf meshTri 0 < zMeanB meshTri) ∧
     ¬(0 ∈ topIdxs meshTri ∧ 0 ∈ bottomIdxs meshTri) ∧
     (zOf meshTri 0 ≠ zMeanB meshTri → (0 ∈ topIdxs meshTri ∨ 0 ∈ bottomIdxs meshTri)) ∧
     (zOf meshTri 0 = zMeanB meshTri → (0 ∉ topIdxs meshTri ∧ 0 ∉ bottomIdxs meshTri))) :=
  ⟨by decide, topBottom_split meshTri 0 (by decide)⟩

lemma mem_ballB_succ_iff (adj : Nat → Nat → Bool) (V s t n : Nat) :
    t ∈ ballB adj V s (n + 1) ↔
      t ∈ ballB adj V s n ∨
        (t < V ∧ ∃ u ∈ ballB adj V s n, adj u t = true) := by
  simp only [ballB, List.mem_dedup, List.mem_append, nbrsB, List.mem_filter,
    List.mem_range, List.any_eq_true]

lemma mem_ballB_succ_of_mem (adj : Nat → Nat → Bool) (V s t n : Nat)
    (h : t ∈ ballB adj V s n) : t ∈ ballB adj V s (n + 1) :=
  (mem_ballB_succ_iff adj V s t n).mpr (Or.inl h)

lemma mem_ballB_mono (adj : Nat → Nat → Bool) (V s t m : Nat) :
    ∀ n, m ≤ n → t ∈ ballB adj V s m → t ∈ ballB adj V s n := by
  intro n
  induction n with
  | zero =>
    intro h0 hm
    have hm0 : m = 0 := Nat.le_zero.mp h0
    rwa [hm0] at hm
  | succ k ih =>
    intro hk hm
    rcases (by omega : m ≤ k ∨ m = k + 1) with hlt | heq
    · exact mem_ballB_succ_of_mem adj V s t k (ih hlt hm)
    · rwa [heq] at hm

lemma mem_ballB_step (adj : Nat → Nat → Bool) (V s u t n : Nat)
    (hu : u ∈ ballB adj V s n) (ht : t < V) (hadj : adj u t = true) :
    t ∈ ballB adj V s (n + 1) :=
  (mem_ballB_succ_iff adj V s t n).mpr (Or.inr ⟨ht, u, hu, hadj⟩)

lemma searchFrom_spec (p : Nat → Bool) :
    ∀ fuel start d, searchFrom p fuel start = some d →
      p d = true ∧ start ≤ d ∧ ∀ m, start ≤ m → m < d → p m = false := by
  intro fuel
  induction fuel with
  | zero =>
    intro start d h
    exact absurd h (by rw [searchFrom]; exact Option.noConfusion)
  | succ k ih =>
    intro start d h
    rw [searchFrom] at h
    by_cases hp : p start = true
    · rw [if_pos hp] at h
      injection h with hd
      subst hd
      exact ⟨hp, le_refl _, fun m h1 h2 => absurd h2 (by omega)⟩
    · have hp' : p start = false := by
        cases hq : p start
        · rfl
        · exact absurd hq hp
      rw [if_neg hp] at h
      obtain ⟨h1, h2, h3⟩ := ih (start + 1) d h
      refine ⟨h1, by omega, ?_⟩
      intro m hm1 hm2
      rcases eq_or_lt_of_le hm1 with heq | hlt
      · rw [← heq]; exact hp'
      · exact h3 m (by omega) hm2

/-- `bfsDist` returns the exact breadth-first distance: `t` is in the
`d`-ball around `s` but in no smaller ball. -/
lemma bfsDist_spec (adj : Nat → Nat → Bool) (V s t d : Nat)
    (h : bfsDist adj V s t = some d) :
    t ∈ ballB adj V s d ∧ ∀ n, n < d → t ∉ ballB adj V s n := by
  obtain ⟨h1, -, h3⟩ := searchFrom_spec _ _ _ _ h
  refine ⟨of_decide_eq_true h1, ?_⟩
  intro n hn
  exact of_decide_eq_false (h3 n (Nat.zero_le n) hn)

/-- Correctness of the path reconstruction: at the exact breadth-first
distance `d`, the rebuilt path starts at `s`, ends at `t`, steps only
along graph edges, and has exactly `d + 1` vertices. -/
lemma pathAux_spec (adj : Nat → Nat → Bool) (V s : Nat) :
    ∀ d t, t ∈ ballB adj V s d → (∀ n, n < d → t ∉ ballB adj V s n) →
      (pathAux adj V s d t).head? = some s ∧
      (pathAux adj V s d t).getLast? = some t ∧
      List.Chain' (fun a b => adj a b = true) (pathAux adj V s d t) ∧
      (pathAux adj V s d t).length = d + 1 := by
  intro d
  induction d with
  | zero =>
    intro t ht _
    have hts : t = s := by simpa [ballB] using ht
    subst hts
    exact ⟨rfl, rfl, List.chain'_singleton t, rfl⟩
  | succ d ih =>
    intro t ht hmin
    have htd : t ∉ ballB adj V s d := hmin d (Nat.lt_succ_self d)
    rcases (mem_ballB_succ_iff adj V s t d).mp ht with hcase | ⟨htV, u', hu', hadj'⟩
    · exact absurd hcase htd
    obtain ⟨u, hfind⟩ : ∃ u, (ballB adj V s d).find? (fun u => adj u t) = some u := by
      cases hf : (ballB adj V s d).find? (fun u => adj u t) with
      | some u => exact ⟨u, rfl⟩
      | none => exact absurd hadj' (List.find?_eq_none.mp hf u' hu')
    have hu : u ∈ ballB adj V s d := List.mem_of_find?_eq_some hfind
    have hadj : adj u t = true := by
      have hp := List.find?_some hfind
      simpa using hp
    have humin : ∀ n, n < d → u ∉ ballB adj V s n := by
      intro n hn hcontra
      have hu1 : u ∈ ballB adj V s (d - 1) :=
        mem_ballB_mono adj V s u n (d - 1) (by omega) hcontra
      have ht2 : t ∈ ballB adj V s d := by
        have hd : d - 1 + 1 = d := by omega
        rw [← hd]
        exact mem_ballB_step adj V s u t (d - 1) hu1 htV hadj
      exact htd ht2
    obtain ⟨hhead, hlast, hchain, hlen⟩ := ih u hu humin
    have hne : pathAux adj V s d u ≠ [] := by
      intro hcontra
      rw [hcontra] at hlen
      exact absurd hlen (by simp)
    have hunfold : pathAux adj V s (d + 1) t = pathAux adj V s d u ++ [t] := by
      rw [pathAux, hfind]
    rw [hunfold]
    refine ⟨?_, List.getLast?_concat _, ?_, ?_⟩
    · rw [List.head?_append_of_ne_nil _ hne, hhead]
    · rw [List.chain'_append]
      refine ⟨hchain, List.chain'_singleton t, ?_⟩
      intro x hx y hy
      have hxu : x = u := by
        rw [hlast] at hx
        have hx' : u = x := by simpa using hx
        exact hx'.symm
      have hyt : y = t := by
        have hy' : t = y := by simpa using hy
        exact hy'.symm
      rw [hxu, hyt]
      exact hadj
    · rw [List.length_append, hlen]
      simp

/-- Both endpoints of a graph edge are valid vertex indices when the
mesh's faces are valid. -/
lemma adjB_lt (m : MeshQ)
    (hvalid : ∀ f ∈ m.faces, f.1 < m.verts.length ∧ f.2.1 < m.verts.length ∧
      f.2.2 < m.verts.length)
    (u v : Nat) (h : adjB m u v = true) :
    u < m.verts.length ∧ v < m.verts.length := by
  rw [adjB, List.any_eq_true] at h
  obtain ⟨f, hf, hmatch⟩ := h
  obtain ⟨h1, h2, h3⟩ := hvalid f hf
  simp only [Bool.or_eq_true, edgeMatch, Bool.and_eq_true, beq_iff_eq] at hmatch
  rcases hmatch with (⟨ha, hb⟩ | ⟨ha, hb⟩) | (⟨ha, hb⟩ | ⟨ha, hb⟩) | (⟨ha, hb⟩ | ⟨ha, hb⟩) <;>
    omega

/-- Every vertex of a chain is its head or the target of a chain edge. -/
lemma chain'_mem_src {R : Nat → Nat → Prop} :
    ∀ (q : List Nat) (a : Nat), List.Chain' R q → q.head? = some a →
      ∀ v ∈ q, v = a ∨ ∃ u, R u v := by
  intro q
  induction q with
  | nil =>
    intro a _ hh v hv
    exact absurd hv (List.not_mem_nil v)
  | cons b tl ih =>
    intro a hchain hhead v hv
    have hba : b = a := by simpa using hhead
    subst hba
    rcases List.mem_cons.mp hv with heq | hv'
    · exact Or.inl heq
    · cases tl with
      | nil => exact absurd hv' (List.not_mem_nil v)
      | cons c tl2 =>
        obtain ⟨hbc, hch2⟩ := List.chain'_cons.mp hchain
        rcases ih c hch2 rfl v hv' with heq | hex
        · rw [heq]
          exact Or.inr ⟨b, hbc⟩
        · exact Or.inr hex

/-- A walk of `k` edges from `a` to `b` places `b` in the `k`-ball
around `a` (all walk vertices being valid indices). -/
lemma walk_mem_ballB (adj : Nat → Nat → Bool) (V : Nat) :
    ∀ (q : List Nat) (a b : Nat), List.Chain' (fun x y => adj x y = true) q →
      q.head? = some a → q.getLast? = some b → (∀ v ∈ q, v < V) →
      b ∈ ballB adj V a (q.length - 1) := by
  intro q
  induction q using List.reverseRecOn with
  | nil =>
    intro a b _ hh _ _
    exact absurd hh (by simp)
  | append_singleton l x ih =>
    intro a b hchain hhead hlast hbound
    have hbx : b = x := by
      rw [List.getLast?_concat] at hlast
      exact (Option.some.inj hlast).symm
    subst hbx
    by_cases hlne : l = []
    · subst hlne
      have hax : a = b := by simpa using hhead.symm
      subst hax
      simp [ballB]
    · have hhead' : l.head? = some a := by
        rw [List.head?_append_of_ne_nil l hlne] at hhead
        exact hhead
      obtain ⟨hchl, -, hrel⟩ := List.chain'_append.mp hchain
      obtain ⟨u, hu⟩ : ∃ u, l.getLast? = some u := by
        cases hgl : l.getLast? with
        | some u => exact ⟨u, rfl⟩
        | none => exact absurd (List.getLast?_eq_none_iff.mp hgl) hlne
      have hrel' : adj u b = true := by
        refine hrel u ?_ b ?_
        · rw [hu]; rfl
        · rfl
      have hball := ih a u hchl hhead' hu
        (fun v hv => hbound v (List.mem_append_left _ hv))
      have hbV : b < V := hbound b (by simp)
      have hstep := mem_ballB_step adj V a u b (l.length - 1) hball hbV hrel'
      have hlen : l.length - 1 + 1 = l.length := by
        have : l.length ≠ 0 := fun hc => hlne (List.length_eq_zero.mp hc)
        omega
      rw [hlen] at hstep
      have hlq : (l ++ [b]).length - 1 = l.length := by simp
      rw [hlq]
      exact hstep

/-- Claim C5: whenever `extract_seam` succeeds, the emitted path starts
at a top-boundary vertex, ends at a bottom-boundary vertex, every pair
of consecutive vertices is adjacent in the mesh graph, the path has at
least two vertices, and no walk between the same endpoints uses fewer
edges (it is a shortest path). -/
theorem extractSeam_spec (m : MeshQ) (p : List Nat)
    (hvalid : ∀ f ∈ m.faces, f.1 < m.verts.length ∧ f.2.1 < m.verts.length ∧
      f.2.2 < m.verts.length)
    (hp : extractSeam m = some p) :
    (∃ s, p.head? = some s ∧ s ∈ topIdxs m) ∧
    (∃ t, p.getLast? = some t ∧ t ∈ bottomIdxs m) ∧
    List.Chain' (fun a b => adjB m a b = true) p ∧
    2 ≤ p.length ∧
    (∀ q : List Nat, List.Chain' (fun a b => adjB m a b = true) q →
      q.head? = p.head? → q.getLast? = p.getLast? → q ≠ [] →
      p.length ≤ q.length) := by
  rw [extractSeam] at hp
  by_cases hb : boundaryIdxs m = []
  · rw [if_pos hb] at hp
    exact absurd hp (by simp)
  rw [if_neg hb] at hp
  by_cases htb : topIdxs m = [] ∨ bottomIdxs m = []
  · rw [if_pos htb] at hp
    exact absurd hp (by simp)
  rw [if_neg htb] at hp
  cases hs : (topIdxs m).argmin (xOf m) with
  | none =>
    rw [hs] at hp
    exact absurd hp (by simp)
  | some s =>
  rw [hs] at hp
  simp only [] at hp
  cases ht : (bottomIdxs m).argmin (fun j => dist3Sq (vertAt m j) (vertAt m s)) with
  | none =>
    rw [ht] at hp
    exact absurd hp (by simp)
  | some t =>
  rw [ht] at hp
  simp only [] at hp
  rw [shortestPath] at hp
  cases hd : bfsDist (adjB m) m.verts.length s t with
  | none =>
    rw [hd] at hp
    exact absurd hp (by simp)
  | some d =>
  rw [hd] at hp
  simp only [] at hp
  have hpeq : p = pathAux (adjB m) m.verts.length s d t := (Option.some.inj hp).symm
  have hsmem : s ∈ topIdxs m := List.argmin_mem (show _ from by rw [hs]; rfl)
  have htmem : t ∈ bottomIdxs m := List.argmin_mem (show _ from by rw [ht]; rfl)
  have hsz : zMeanB m < zOf m s := of_decide_eq_true (List.mem_filter.mp hsmem).2
  have htz : zOf m t < zMeanB m := of_decide_eq_true (List.mem_filter.mp htmem).2
  have hst : s ≠ t := by
    intro heq
    rw [heq] at hsz
    exact absurd (lt_trans htz hsz) (lt_irrefl _)
  have hsb : s ∈ boundaryIdxs m := (List.mem_filter.mp hsmem).1
  have hsV : s < m.verts.length := List.mem_range.mp (List.mem_filter.mp hsb).1
  obtain ⟨hball, hminball⟩ := bfsDist_spec (adjB m) m.verts.length s t d hd
  obtain ⟨hhead, hlast, hchain, hlen⟩ :=
    pathAux_spec (adjB m) m.verts.length s d t hball hminball
  have hd1 : 1 ≤ d := by
    rcases Nat.eq_zero_or_pos d with h0 | h
    · rw [h0] at hball
      have : t = s := by simpa [ballB] using hball
      exact absurd this.symm hst
    · exact h
  rw [← hpeq] at hhead hlast hchain hlen
  refine ⟨⟨s, hhead, hsmem⟩, ⟨t, hlast, htmem⟩, hchain, by omega, ?_⟩
  intro q hqchain hqhead hqlast hqne
  rw [hhead] at hqhead
  rw [hlast] at hqlast
  have hbound : ∀ v ∈ q, v < m.verts.length := by
    intro v hv
    rcases chain'_mem_src q s hqchain hqhead v hv with heq | ⟨u, hu⟩
    · rw [heq]
      exact hsV
    · exact (adjB_lt m hvalid u v hu).2
  have hwalk := walk_mem_ballB (adjB m) m.verts.length q s t hqchain hqhead hqlast hbound
  have hdle : d ≤ q.length - 1 := by
    by_contra hcon
    exact hminball (q.length - 1) (by omega) hwalk
  have hq1 : 1 ≤ q.length := by
    rcases Nat.eq_zero_or_pos q.length with h0 | h
    · exact absurd (List.length_eq_zero.mp h0) hqne
    · exact h
  omega

/-- A two-triangle band: vertices 0, 1 at height 0 and 2, 3 at height 1;
every vertex is a boundary vertex, vertices 2 and 3 form the top group
and 0 and 1 the bottom group. -/
def meshBand : MeshQ :=
  ⟨[(0, 0, 0), (1, 0, 0), (0, 0, 1), (1, 0, 1)], [(0, 1, 2), (1, 3, 2)]⟩

lemma extractSeam_meshBand : extractSeam meshBand = some [2, 0] := by
  have h : boundaryIdxs meshBand = [0, 1, 2, 3] := by decide
  have hm : zMeanB meshBand = 1 / 2 := by
    rw [zMeanB, h]
    norm_num [zOf, vertAt, meshBand]
  have hz0 : zOf meshBand 0 = 0 := rfl
  have hz1 : zOf meshBand 1 = 0 := rfl
  have hz2 : zOf meshBand 2 = 1 := rfl
  have hz3 : zOf meshBand 3 = 1 := rfl
  have htop : topIdxs meshBand = [2, 3] := by
    rw [topIdxs, h]
    simp only [List.filter_cons, List.filter_nil, hm, hz0, hz1, hz2, hz3]
    norm_num
  have hbot : bottomIdxs meshBand = [0, 1] := by
    rw [bottomIdxs, h]
    simp only [List.filter_cons, List.filter_nil, hm, hz0, hz1, hz2, hz3]
    norm_num
  have hat : (topIdxs meshBand).argmin (xOf meshBand) = some 2 := by
    rw [htop]
    norm_num [List.argmin, List.argAux, xOf, vertAt, meshBand]
  have hab : (bottomIdxs meshBand).argmin
      (fun j => dist3Sq (vertAt meshBand j) (vertAt meshBand 2)) = some 0 := by
    rw [hbot]
    norm_num [List.argmin, List.argAux, dist3Sq, vertAt, meshBand]
  rw [extractSeam, if_neg (by rw [h]; exact (by simp)),
    if_neg (by rw [htop, hbot]; simp), hat]
  simp only []
  rw [hab]
  simp only []
  decide

theorem extractSeam_spec_witness :
    (∀ f ∈ meshBand.faces, f.1 < meshBand.verts.length ∧
      f.2.1 < meshBand.verts.length ∧ f.2.2 < meshBand.verts.length) ∧
    extractSeam meshBand = some [2, 0] ∧
    ((∃ s, ([2, 0] : List Nat).head? = some s ∧ s ∈ topIdxs meshBand) ∧
     (∃ t, ([2, 0] : List Nat).getLast? = some t ∧ t ∈ bottomIdxs meshBand) ∧
     List.Chain' (fun a b => adjB meshBand a b = true) [2, 0] ∧
     2 ≤ ([2, 0] : List Nat).length ∧
     (∀ q : List Nat, List.Chain' (fun a b => adjB meshBand a b = true) q →
       q.head? = ([2, 0] : List Nat).head? → q.getLast? = ([2, 0] : List Nat).getLast? →
       q ≠ [] → ([2, 0] : List Nat).length ≤ q.length)) :=
  ⟨by decide, extractSeam_meshBand,
   extractSeam_spec meshBand [2, 0] (by decide) extractSeam_meshBand⟩
